import Mathlib

/-!
Shallow embedding of `src/index.js` of the `eth-approvals` repository.

Conventions of the embedding:
* JS strings are Lean `String`s.  The JS runtime/library string helpers the
  source relies on (`String.prototype.toLowerCase`, `String.prototype.split`
  with a one-character separator, `String.prototype.slice(-40)`, the regex
  prefix test of `unpadAddress`, `web3.utils.padLeft`) are re-implemented
  below at the character-list level, so that everything reduces in the kernel.
* BN.js big integers and decoded `uint256` results are modelled as `Nat`
  (arbitrary precision, never negative in this program).  Decimal-string
  round trips (`toBN(..).toString(10)`) are the identity on the value and are
  therefore dropped.
* JS floating point numbers (exchange rates, risk scores) are modelled as
  `ℚ`; division by zero yields `0` in `ℚ` where JS would yield NaN/Infinity.
* JS exceptions are modelled with `Except Unit`; every `throw` in the source
  (including the out-of-scope-variable `ReferenceError` of
  `compareNumberKeys`) becomes `.error ()`.
* JS objects used as string-keyed maps (`approvalMap`, `balances`,
  `decimalsMap`, `exchangeRates`) are modelled as association lists
  `List (String × _)` with JS object semantics: assigning an existing key
  overwrites in place, assigning a fresh key appends.
* The network is a collaborator: batched per-item call results are supplied
  as oracles (`String → Except Unit _` and similar), one result per item,
  matching the per-item `(error, result)` callbacks of the source.
* `Array.prototype.sort` is modelled as a stable comparison sort
  (insertion sort); an exception raised by the comparator propagates.
-/

deriving instance DecidableEq for Except

namespace EthApprovals

/-- Models JS `String.prototype.toLowerCase` (character by character). -/
def jsToLower (s : String) : String := String.mk (s.toList.map Char.toLower)

/-- Models JS `String.prototype.split` with a one-character separator,
at the character-list level. -/
def splitChars (sep : Char) : List Char → List (List Char)
  | [] => [[]]
  | c :: cs =>
    if c = sep then [] :: splitChars sep cs
    else
      match splitChars sep cs with
      | [] => [[c]]
      | r :: rs => (c :: r) :: rs

/-- Models JS `key.split(sep)` for a one-character separator `sep`. -/
def jsSplit (sep : Char) (s : String) : List String :=
  (splitChars sep s.toList).map String.mk

/-- Models `web3.utils.padLeft(value, n)`: left-pad the hex part of a
`0x`-prefixed string with zeros up to `n` characters. -/
def padLeftHex (s : String) (n : Nat) : String :=
  let hex := if ("0x".toList).isPrefixOf s.toList then s.toList.drop 2 else s.toList
  String.mk ('0' :: 'x' :: (List.replicate (n - hex.length) '0' ++ hex))

/-- Line 155 of the source: `w3.utils.padLeft('0x0', 40)` — the zero address. -/
def nullAddress : String := padLeftHex "0x0" 40

/-- Prefix required of a 32-byte topic word by `unpadAddress` (line 89):
`0x` followed by 24 zeros. -/
def zeroPrefix : List Char := "0x000000000000000000000000".toList

/-- Lines 88–93, `unpadAddress`: validate the zero padding and keep the low
20 bytes (`'0x' + address.slice(-40)`).  A failed regex test throws. -/
def unpadAddress (address : String) : Except Unit String :=
  if zeroPrefix.isPrefixOf address.toList then
    .ok (String.mk ('0' :: 'x' :: address.toList.drop (address.toList.length - 40)))
  else .error ()

/-- Line 8 of the source: keccak hash of `Approval(address,address,uint256)`. -/
def approvalTopic : String :=
  "0x8c5be1e5ebec7d5bd14f71427d1e84f3dd0314c0f7b2291e5b200ac8c7c3b925"

/-- One event log entry as delivered by `w3.eth.getPastLogs`:
`{address, topics, data, blockNumber, transactionIndex, logIndex}`.
The `data` word is kept as its numeric value (see header). -/
structure TxLog where
  address : String
  topics : List String
  data : Nat
  blockNumber : Nat
  transactionIndex : Nat
  logIndex : Nat
deriving DecidableEq

/-- Loop body of the comparator of lines 79–87: walk the key list, return
the first nonzero difference `a[key] - b[key]`.  When every difference is
zero the source executes `return result` with `result` out of scope
(it was `const` inside the loop body), which raises a `ReferenceError`:
modelled as `.error ()`. -/
def compareNumberKeysGo {α : Type} (a b : α) : List (α → Nat) → Except Unit Int
  | [] => .error ()
  | key :: keys =>
    let result : Int := (key a : Int) - (key b : Int)
    if result ≠ 0 then .ok result else compareNumberKeysGo a b keys

/-- Lines 79–87, `compareNumberKeys(keys)`: the produced comparator. -/
def compareNumberKeys {α : Type} (keys : List (α → Nat)) (a b : α) : Except Unit Int :=
  compareNumberKeysGo a b keys

/-- Line 149: the comparator instantiated with
`['blockNumber', 'transactionIndex', 'logIndex']`. -/
def logCompare (a b : TxLog) : Except Unit Int :=
  compareNumberKeys [TxLog.blockNumber, TxLog.transactionIndex, TxLog.logIndex] a b

/-- Insert into a sorted list using a fallible JS comparator (negative or
zero: `x` goes before `y`); a comparator exception propagates. -/
def insertSorted {α : Type} (cmp : α → α → Except Unit Int) (x : α) :
    List α → Except Unit (List α)
  | [] => .ok [x]
  | y :: ys =>
    match cmp x y with
    | .error e => .error e
    | .ok c =>
      if c ≤ 0 then .ok (x :: y :: ys)
      else
        match insertSorted cmp x ys with
        | .error e => .error e
        | .ok rest => .ok (y :: rest)

/-- Models `Array.prototype.sort(cmp)` (line 148) as a stable insertion
sort; a comparator exception aborts the sort. -/
def sortLogs {α : Type} (cmp : α → α → Except Unit Int) :
    List α → Except Unit (List α)
  | [] => .ok []
  | x :: xs =>
    match sortLogs cmp xs with
    | .error e => .error e
    | .ok sorted => insertSorted cmp x sorted

/-- Value stored in `approvalMap` (line 170): first `{amount}`, later
optionally extended by the allowance handler (lines 199–207).  A JS field
that was never assigned is `none` / `false` here. -/
structure ApprovalData where
  amount : Nat
  allowance : Option Nat := none
  allowanceError : Bool := false
deriving DecidableEq

/-- Models assignment `m[k] = v` on a JS object used as a string-keyed map:
overwrite in place if the key exists, else append (JS objects keep
string-key insertion order, first insertion wins for position). -/
def setKey {α : Type} (m : List (String × α)) (k : String) (v : α) :
    List (String × α) :=
  if m.any (fun p => p.1 = k) then
    m.map (fun p => if p.1 = k then (k, v) else p)
  else m ++ [(k, v)]

/-- Models a field update `m[k].f = ...` on an existing entry of a JS map. -/
def updateKey {α : Type} (m : List (String × α)) (k : String) (f : α → α) :
    List (String × α) :=
  m.map (fun p => if p.1 = k then (p.1, f p.2) else p)

/-- Line 169: `[contractAddress, spender].join(".")`. -/
def approvalKeyOf (contractAddress spender : String) : String :=
  contractAddress ++ "." ++ spender

/-- Lines 157–168: decode one log — destructure the three topics, check the
Approval topic, unpad owner and spender, check the owner against the queried
address, take the contract address and the amount.  Any failure throws. -/
def decodeLog (addressLower : String) (txLog : TxLog) :
    Except Unit (String × String × Nat) :=
  match txLog.topics with
  | action :: ownerPadded :: spenderPadded :: _ =>
    if action = approvalTopic then
      match unpadAddress ownerPadded with
      | .error e => .error e
      | .ok owner =>
        match unpadAddress spenderPadded with
        | .error e => .error e
        | .ok spender =>
          if owner = addressLower then .ok (txLog.address, spender, txLog.data)
          else .error ()
    else .error ()
  | _ => .error ()

/-- Lines 169–170: store the decoded amount under the joined key. -/
def processLog (addressLower : String) (m : List (String × ApprovalData))
    (txLog : TxLog) : Except Unit (List (String × ApprovalData)) :=
  match decodeLog addressLower txLog with
  | .error e => .error e
  | .ok (contractAddress, spender, amount) =>
    .ok (setKey m (approvalKeyOf contractAddress spender) { amount })

/-- Lines 154–171: the `approvalLogs.forEach` loop building `approvalMap`. -/
def buildApprovalMap (addressLower : String) (logs : List TxLog) :
    Except Unit (List (String × ApprovalData)) :=
  logs.foldlM (processLog addressLower) []

/-- First component of `key.split(".")` (`contractAddress`, lines 182/195/213). -/
def contractOfKey (key : String) : String := (jsSplit '.' key).getD 0 ""

/-- Second component of `key.split(".")` (`spender`, lines 182/195/213). -/
def spenderOfKey (key : String) : String := (jsSplit '.' key).getD 1 ""

/-- Lines 179–184: `Object.keys(approvalMap)` filtered to keys whose spender
component is not the zero address. -/
def validApprovalKeys (m : List (String × ApprovalData)) : List String :=
  (m.map Prod.fst).filter (fun key => spenderOfKey key ≠ nullAddress)

/-- Lines 199–207: the per-item allowance handler — on error set
`allowanceError = true` and leave `allowance` unset, on success store the
allowance. -/
def allowanceHandler (allowanceResults : String → Except Unit Nat)
    (key : String) (d : ApprovalData) : ApprovalData :=
  match allowanceResults key with
  | .error _ => { d with allowanceError := true }
  | .ok allowance => { d with allowance := some allowance }

/-- Lines 193–208: the allowance batch over `validApprovals`; each item's
handler writes only to `approvalMap[key]` of its own key.  Completion order
of a batch is unspecified; writes touch disjoint keys, the fold order below
is one serialization. -/
def allowancePass (m : List (String × ApprovalData)) (validApprovals : List String)
    (allowanceResults : String → Except Unit Nat) : List (String × ApprovalData) :=
  validApprovals.foldl (fun m key => updateKey m key (allowanceHandler allowanceResults key)) m

/-- One reconstructed approval of the returned report (lines 212–217):
`{contract, spender, ...data}`. -/
structure Approval where
  contract : String
  spender : String
  amount : Nat
  allowance : Option Nat := none
  allowanceError : Bool := false
deriving DecidableEq

/-- The report returned by `getApprovals` (line 219). -/
structure ApprovalReport where
  owner : String
  approvals : List Approval
deriving DecidableEq

/-- Line 212–217: turn one `approvalMap` entry into an `Approval` by
splitting its key. -/
def entryToApproval (p : String × ApprovalData) : Approval :=
  { contract := contractOfKey p.1
    spender := spenderOfKey p.1
    amount := p.2.amount
    allowance := p.2.allowance
    allowanceError := p.2.allowanceError }

/-- Lines 129–220, `getApprovals`, as a function of the fetched logs and the
per-item allowance-call results (the chain client is a collaborator): sort
the logs, build `approvalMap` (latest wins), filter the keys for the
allowance batch, run the allowance pass, and emit the final report from
`Object.keys(approvalMap)`.  Termination caveat: `.ok` here is the report
the source computes once the awaited allowance batch has settled, which the
source's promise only does when `validApprovalKeys` is nonempty — with an
empty batch the await at line 193 never resolves (see
`makeBatchRequestPromiseResolves` and the C4 analysis), a hang this
`Except`-valued model cannot express; statements about runs whose batch is
empty must read that caveat into `.ok`. -/
def getApprovals (address : String) (logs : List TxLog)
    (allowanceResults : String → Except Unit Nat) : Except Unit ApprovalReport :=
  let addressLower := jsToLower address
  match sortLogs logCompare logs with
  | .error e => .error e
  | .ok approvalLogs =>
    match buildApprovalMap addressLower approvalLogs with
    | .error e => .error e
    | .ok approvalMap0 =>
      let validApprovals := validApprovalKeys approvalMap0
      let approvalMap := allowancePass approvalMap0 validApprovals allowanceResults
      .ok { owner := address, approvals := approvalMap.map entryToApproval }

/-- Lines 96–119, `makeBatchRequestPromise`: `resolve()` is invoked only
inside a per-item callback `cb`, after `numResponses += 1`, when
`numResponses === numRequests`.  Each of the `numRequests` callbacks fires
exactly once (collaborator contract), so after the `k`-th callback
`numResponses = k + 1` for `k < numRequests`; the promise resolves iff some
callback observes `numResponses === numRequests`. -/
def makeBatchRequestPromiseResolves {α : Type} (items : List α) : Bool :=
  (List.range items.length).any (fun k => k + 1 = items.length)

/-- Line 117: `batch.execute()` is invoked unconditionally, also for an
empty item collection. -/
def makeBatchRequestPromiseExecutes {α : Type} (_items : List α) : Bool := true

/-- Line 258: `[...new Set(approvals.map(a => a.contract))]` — a JS `Set`
keeps the first occurrence of each element. -/
def jsSetDedup : List String → List String
  | [] => []
  | x :: xs => x :: jsSetDedup (xs.filter (fun y => y ≠ x))
termination_by l => l.length
decreasing_by
  simp only [List.length_cons]
  exact Nat.lt_succ_of_le (List.length_filter_le _ _)

/-- Value stored in `balances[approval.contract]` by the balance handler
(lines 269–275).  The JS dynamic type matters here: on success web3 1.x
delivers the `uint256` result as a decimal string and the handler stores it
raw; on error the handler stores the JS number `0`. -/
inductive BalanceSlot
  | jsNumberZero
  | decimalString (balance : Nat)
deriving DecidableEq

/-- Numeric value of a balance slot (the JS number it coerces to). -/
def balanceSlotValue : BalanceSlot → Nat
  | .jsNumberZero => 0
  | .decimalString balance => balance

/-- Lines 263–276: the balance batch — one `balanceOf(owner)` call per
approval, the handler stores the raw result (a decimal string) or, on
error, the number `0` under the approval's contract.  The oracle is keyed
by the contract since every sub-operation for a contract issues the
identical call. -/
def balancePass (approvals : List Approval)
    (balanceResults : String → Except Unit Nat) : List (String × BalanceSlot) :=
  approvals.foldl
    (fun balances approval =>
      setKey balances approval.contract
        (match balanceResults approval.contract with
         | .error _ => .jsNumberZero
         | .ok balance => .decimalString balance)) []

/-- Lines 280–293: the decimals batch — one `decimals()` call per distinct
contract; on error the handler falls back to `18`. -/
def decimalsPass (tokenAddresses : List String)
    (decimalsResults : String → Except Unit Nat) : List (String × Nat) :=
  tokenAddresses.foldl
    (fun m tokenAddress =>
      setKey m tokenAddress
        (match decimalsResults tokenAddress with
         | .error _ => 18
         | .ok decimals => decimals)) []

/-- Line 230: the wrapped-native-currency intermediate token. -/
def wethAddress : String := "0xc02aaa39b223fe8d0a0e5c4f27ead9083c756cc2"

/-- One `getAmountsOut(amountIn, path)` request (lines 242–245). -/
structure AmountsOutRequest where
  amountIn : Nat
  path : List String
deriving DecidableEq

/-- Lines 238–246, `getTokenWeiExchangeRateRequest`: request the amounts out
for `10^decimals` of the token routed through WETH. -/
def getTokenWeiExchangeRateRequest (tokenAddress : String) (decimals : Nat) :
    AmountsOutRequest :=
  { amountIn := 10 ^ decimals, path := [tokenAddress, wethAddress] }

/-- Lines 296–302: the request issued for each distinct contract in the
exchange-rate pass, using `decimalsMap[tokenAddress]` from the decimals
pass (always present for these tokens; the `getD` default is unreachable). -/
def exchangeRateRequests (tokenAddresses : List String)
    (decimalsMap : List (String × Nat)) : List (String × AmountsOutRequest) :=
  tokenAddresses.map
    (fun tokenAddress =>
      (tokenAddress,
       getTokenWeiExchangeRateRequest tokenAddress ((decimalsMap.lookup tokenAddress).getD 0)))

/-- Lines 309–310: `const [amountInToken, amountInWei] = rates` and
`amountInWei / amountInToken` (JS float division modelled over `ℚ`). -/
def rateOfAmounts (rates : List Nat) : ℚ :=
  (rates.getD 1 0 : ℚ) / (rates.getD 0 0 : ℚ)

/-- Lines 296–312: the exchange-rate batch — per distinct contract, issue
the amounts-out request and store `amountInWei/amountInToken`; an errored
item is replaced by `rates = [1, 0]`, i.e. rate `0`. -/
def exchangeRatePass (tokenAddresses : List String)
    (decimalsMap : List (String × Nat))
    (ratesResults : AmountsOutRequest → Except Unit (List Nat)) : List (String × ℚ) :=
  tokenAddresses.foldl
    (fun m tokenAddress =>
      let request := getTokenWeiExchangeRateRequest tokenAddress
        ((decimalsMap.lookup tokenAddress).getD 0)
      let rates :=
        match ratesResults request with
        | .error _ => [1, 0]
        | .ok rates => rates
      setKey m tokenAddress (rateOfAmounts rates)) []

/-- Models JS `x || y` for numbers: `0` and a missing value are falsy
(line 339 applies this to `reputations[address]`). -/
def jsOrQ (x : Option ℚ) (y : ℚ) : ℚ :=
  match x with
  | some r => if r = 0 then y else r
  | none => y

/-- Line 339: `reputations[address] || (1 + (verifiedContracts.has(address) ? 1 : 0))`. -/
def reputationOf (reputations : String → Option ℚ) (verifiedContracts : List String)
    (address : String) : ℚ :=
  jsOrQ (reputations address) (1 + (if address ∈ verifiedContracts then 1 else 0))

/-- Right operand of `BN.min` as the source builds it: either a real `BN`
(from `new BN(0)`) or web3 1.x's raw decimal-string result, never converted
to a `BN`. -/
inductive BnOperand
  | bn (value : Nat)
  | rawString (value : Nat)
deriving DecidableEq

/-- Models `BN.min(left, right)` of bn.js — `left.cmp(right) < 0 ? left :
right` — with `left` a `BN` holding a non-negative value.  When `right` is a
`BN`, `cmp` compares the values.  When `right` is a raw decimal string,
`cmp` evaluates `this.negative === 0 && num.negative !== 0` with
`num.negative` `undefined`, which is `true`, and returns 1; `1 < 0` fails,
so `BN.min` returns the string operand unconditionally.  The result is kept
as its numeric value (the later `exchangeRate * amount` coerces either
representation to that number). -/
def bnMinJs (left : Nat) : BnOperand → Nat
  | .bn value => if left < value then left else value
  | .rawString value => value

/-- Lines 342–344: `amountAtRisk = BN.min(new BN(approval.amount),
balances[approval.contract] || new BN(0))`.  The `||` keeps a fetched
decimal string (every nonempty string, `"0"` included, is truthy) and
replaces the error path's number `0` (falsy) and a missing key (`undefined`)
by `new BN(0)`; the string operand then defeats `BN.min` (see `bnMinJs`). -/
def amountAtRisk (balances : List (String × BalanceSlot)) (approval : Approval) : Nat :=
  bnMinJs approval.amount
    (match balances.lookup approval.contract with
     | some (.decimalString balance) => .rawString balance
     | some .jsNumberZero => .bn 0
     | none => .bn 0)

/-- Lines 338–347, `getRiskScore`: `risk = severity(contract, amountAtRisk)
* likelihood(contract, spender)` with `severity = exchangeRate * amount`
and `likelihood = reputation(contract) * reputation(spender)`. -/
def getRiskScore (reputations : String → Option ℚ) (verifiedContracts : List String)
    (exchangeRates : List (String × ℚ)) (balances : List (String × BalanceSlot))
    (approval : Approval) : ℚ :=
  let reputation : String → ℚ := reputationOf reputations verifiedContracts
  let likelihood : String → String → ℚ :=
    fun contract spender => reputation contract * reputation spender
  let severity : String → Nat → ℚ :=
    fun token amount => ((exchangeRates.lookup token).getD 0) * (amount : ℚ)
  let risk := severity approval.contract (amountAtRisk balances approval) *
    likelihood approval.contract approval.spender
  risk

/-- One approval of the scored report (lines 350–351):
`{...approval, risk, balance: balances[approval.contract]}`.  The balance
key is always present for an approval's contract (the balance pass wrote
it); the stored slot (decimal string, or number 0 on error) is kept as its
numeric value. -/
structure ScoredApproval where
  contract : String
  spender : String
  amount : Nat
  allowance : Option Nat := none
  allowanceError : Bool := false
  risk : ℚ
  balance : Nat
deriving DecidableEq

/-- The report returned by `addApprovalRiskScore` (lines 348–352). -/
structure ScoredReport where
  owner : String
  approvals : List ScoredApproval
deriving DecidableEq

/-- Lines 254–353, `addApprovalRiskScore`, as a function of the per-item
call results (balance, decimals, amounts-out) and of the reputation /
verification data: run the balance, decimals and exchange-rate passes, then
score every approval.  The broken etherscan-verification branch (lines
314–333, see the spec's design notes) is abstracted into the
`verifiedContracts` input; without an API key it is empty. -/
def addApprovalRiskScore (report : ApprovalReport)
    (reputations : String → Option ℚ) (verifiedContracts : List String)
    (balanceResults : String → Except Unit Nat)
    (decimalsResults : String → Except Unit Nat)
    (ratesResults : AmountsOutRequest → Except Unit (List Nat)) : ScoredReport :=
  let approvals := report.approvals
  let tokenAddresses := jsSetDedup (approvals.map (fun a => a.contract))
  let balances := balancePass approvals balanceResults
  let decimalsMap := decimalsPass tokenAddresses decimalsResults
  let exchangeRates := exchangeRatePass tokenAddresses decimalsMap ratesResults
  { owner := report.owner
    approvals := approvals.map (fun a =>
      { contract := a.contract
        spender := a.spender
        amount := a.amount
        allowance := a.allowance
        allowanceError := a.allowanceError
        risk := getRiskScore reputations verifiedContracts exchangeRates balances a
        balance := balanceSlotValue ((balances.lookup a.contract).getD .jsNumberZero) }) }

/-- Write target of the allowance handler (line 203/206): the item's own
key `approvalMap[key]`. -/
def allowanceWriteKeys (validApprovals : List String) : List String := validApprovals

/-- Write target of the balance handler (line 274): `balances[approval.contract]`
for each batched approval. -/
def balanceWriteKeys (approvals : List Approval) : List String :=
  approvals.map (fun a => a.contract)

/-- Write target of the decimals handler (line 291): `decimalsMap[tokenAddress]`. -/
def decimalsWriteKeys (tokenAddresses : List String) : List String := tokenAddresses

/-- Write target of the exchange-rate handler (line 310): `exchangeRates[tokenAddress]`. -/
def exchangeRateWriteKeys (tokenAddresses : List String) : List String := tokenAddresses

/-! Vocabulary for the statements: the chronological order of events and the
decoded key of a log, as the spec describes them. -/

/-- Chronological position of a log entry:
`(blockNumber, transactionIndex, logIndex)`. -/
def tripleOf (l : TxLog) : Nat × Nat × Nat :=
  (l.blockNumber, l.transactionIndex, l.logIndex)

/-- Strict chronological order on log entries: lexicographic on `tripleOf`. -/
def tripleLt (a b : TxLog) : Prop :=
  a.blockNumber < b.blockNumber ∨
    (a.blockNumber = b.blockNumber ∧
      (a.transactionIndex < b.transactionIndex ∨
        (a.transactionIndex = b.transactionIndex ∧ a.logIndex < b.logIndex)))

instance (a b : TxLog) : Decidable (tripleLt a b) := by
  unfold tripleLt; infer_instance

/-- Chronologically at-or-before. -/
def tripleLe (a b : TxLog) : Prop := tripleLt a b ∨ tripleOf a = tripleOf b

/-- The `(contract, spender)` key reconstruction stores a log under, when
decoding succeeds. -/
def decodeKey (addressLower : String) (l : TxLog) : Option String :=
  match decodeLog addressLower l with
  | .ok (contractAddress, spender, _) => some (approvalKeyOf contractAddress spender)
  | .error _ => none

/-- The logs that reconstruction stores under key `k`. -/
def eventsForKey (addressLower k : String) (logs : List TxLog) : List TxLog :=
  logs.filter (fun l => decodeKey addressLower l == some k)

/-- Amount of the last log (in list order) stored under key `k`. -/
def lastAmount (addressLower k : String) (logs : List TxLog) : Option Nat :=
  ((eventsForKey addressLower k logs).map (fun l => l.data)).getLast?

/-- A log decodes successfully and its contract and spender contain no `'.'`
(the key glue), so its key splits back into the original pair. -/
def decodedDotFree (addressLower : String) (l : TxLog) : Bool :=
  match decodeLog addressLower l with
  | .ok (contractAddress, spender, _) =>
    !(contractAddress.toList.contains '.') && !(spender.toList.contains '.')
  | .error _ => false

/-! Concrete inputs used by the witnesses and counterexamples. -/

/-- Witness owner address. -/
def addrA : String := "0xaaaaaaaaaaaaaaaaaaaaaaaaaaaaaaaaaaaaaaaa"

/-- Witness token contract. -/
def contractC : String := "0xcccccccccccccccccccccccccccccccccccccccc"

/-- Witness spender address. -/
def spenderB : String := "0xbbbbbbbbbbbbbbbbbbbbbbbbbbbbbbbbbbbbbbbb"

/-- Second witness spender address. -/
def spenderD : String := "0xdddddddddddddddddddddddddddddddddddddddd"

/-- The owner topic word: `addrA` zero-padded to 32 bytes. -/
def ownerPaddedA : String :=
  "0x000000000000000000000000aaaaaaaaaaaaaaaaaaaaaaaaaaaaaaaaaaaaaaaa"

/-- The `spenderB` topic word. -/
def spenderPaddedB : String :=
  "0x000000000000000000000000bbbbbbbbbbbbbbbbbbbbbbbbbbbbbbbbbbbbbbbb"

/-- The `spenderD` topic word. -/
def spenderPaddedD : String :=
  "0x000000000000000000000000dddddddddddddddddddddddddddddddddddddddd"

/-- The zero-address topic word. -/
def spenderPaddedZero : String :=
  "0x0000000000000000000000000000000000000000000000000000000000000000"

/-- Approval event: amount 100 at block 10 for `(contractC, spenderB)`. -/
def log100 : TxLog :=
  { address := contractC, topics := [approvalTopic, ownerPaddedA, spenderPaddedB]
    data := 100, blockNumber := 10, transactionIndex := 0, logIndex := 0 }

/-- Approval event: amount 50 at block 20 for the same `(contractC, spenderB)`. -/
def log50 : TxLog :=
  { address := contractC, topics := [approvalTopic, ownerPaddedA, spenderPaddedB]
    data := 50, blockNumber := 20, transactionIndex := 0, logIndex := 0 }

/-- Approval event whose spender is the zero address. -/
def logZeroSpender : TxLog :=
  { address := contractC, topics := [approvalTopic, ownerPaddedA, spenderPaddedZero]
    data := 77, blockNumber := 5, transactionIndex := 1, logIndex := 2 }

/-- One of two order-identical log entries (same block, transaction index
and log index). -/
def logTieA : TxLog :=
  { address := contractC, topics := [approvalTopic, ownerPaddedA, spenderPaddedB]
    data := 1, blockNumber := 3, transactionIndex := 4, logIndex := 5 }

/-- The other order-identical log entry. -/
def logTieB : TxLog :=
  { address := contractC, topics := [approvalTopic, ownerPaddedA, spenderPaddedD]
    data := 2, blockNumber := 3, transactionIndex := 4, logIndex := 5 }

/-- Approval event for `(contractC, spenderD)` (same contract as `log100`). -/
def logS2 : TxLog :=
  { address := contractC, topics := [approvalTopic, ownerPaddedA, spenderPaddedD]
    data := 8, blockNumber := 11, transactionIndex := 0, logIndex := 0 }

/-- Witness reconstructed approval on `contractC`. -/
def apprC : Approval := { contract := contractC, spender := spenderB, amount := 50 }

/-- Reputation map that explicitly blacklists `contractC` with reputation 0. -/
def repsBlacklistC : String → Option ℚ :=
  fun a => if a = contractC then some 0 else none

/-- Allowance oracle erroring exactly on the `(contractC, spenderB)` key and
answering 9 elsewhere. -/
def allowOracleCB : String → Except Unit Nat :=
  fun k => if k = approvalKeyOf contractC spenderB then .error () else .ok 9

/-- The report `getApprovals` returns for `[log100, logS2]` under
`allowOracleCB`: the errored item is flagged, the other resolves. -/
def reportFault : ApprovalReport :=
  ApprovalReport.mk addrA
    [Approval.mk contractC spenderB 100 none true,
     Approval.mk contractC spenderD 8 (some 9) false]

/-! Association-list lemmas for the JS-object model. -/

theorem lookup_append {α : Type} (l1 l2 : List (String × α)) (k : String) :
    (l1 ++ l2).lookup k =
      match l1.lookup k with
      | some v => some v
      | none => l2.lookup k := by
  induction l1 with
  | nil => rfl
  | cons p l1 ih =>
    obtain ⟨k0, v0⟩ := p
    simp only [List.cons_append, List.lookup_cons]
    cases k == k0 <;> simp [ih]

theorem lookup_eq_none_of_not_any {α : Type} (m : List (String × α)) (k : String)
    (h : ¬ m.any (fun p => p.1 = k)) : m.lookup k = none := by
  induction m with
  | nil => rfl
  | cons p m ih =>
    obtain ⟨k0, v0⟩ := p
    have h0 : ¬ k0 = k := by
      intro hh
      exact h (by simp [List.any_cons, hh])
    have hbe : (k == k0) = false := by simp [Ne.symm h0]
    simp only [List.lookup_cons, hbe]
    exact ih (fun hh => h (by simp [List.any_cons, hh]))

theorem lookup_map_overwrite {α : Type} (m : List (String × α)) (k : String) (v : α) :
    (m.map (fun p => if p.1 = k then (k, v) else p)).lookup k =
      if m.any (fun p => p.1 = k) then some v else none := by
  induction m with
  | nil => rfl
  | cons p m ih =>
    obtain ⟨k0, v0⟩ := p
    by_cases h : k0 = k
    · subst h
      simp [List.lookup_cons, List.any_cons]
    · have hbe : (k == k0) = false := by simp [Ne.symm h]
      simp only [List.map_cons, if_neg h, List.lookup_cons, hbe, ih, List.any_cons]
      simp only [decide_eq_false h, Bool.false_or]

theorem lookup_map_overwrite_ne {α : Type} (m : List (String × α)) (k k' : String) (v : α)
    (h : k' ≠ k) :
    (m.map (fun p => if p.1 = k then (k, v) else p)).lookup k' = m.lookup k' := by
  induction m with
  | nil => rfl
  | cons p m ih =>
    obtain ⟨k0, v0⟩ := p
    by_cases h0 : k0 = k
    · subst h0
      have hbe : (k' == k0) = false := by simp [h]
      simp [List.lookup_cons, hbe, ih]
    · have : ((k0, v0).1 = k) = False := by simp [h0]
      simp only [List.map_cons, this, if_false]
      simp only [List.lookup_cons]
      cases k' == k0 <;> simp [ih]

theorem lookup_setKey_self {α : Type} (m : List (String × α)) (k : String) (v : α) :
    (setKey m k v).lookup k = some v := by
  unfold setKey
  by_cases h : m.any (fun p => p.1 = k)
  · simp only [if_pos h, lookup_map_overwrite, h, if_true]
  · simp only [if_neg h, lookup_append, lookup_eq_none_of_not_any m k h]
    simp [List.lookup_cons]

theorem lookup_setKey_ne {α : Type} (m : List (String × α)) (k k' : String) (v : α)
    (h : k' ≠ k) : (setKey m k v).lookup k' = m.lookup k' := by
  unfold setKey
  by_cases hany : m.any (fun p => p.1 = k)
  · simp only [if_pos hany]
    exact lookup_map_overwrite_ne m k k' v h
  · simp only [if_neg hany, lookup_append]
    have hbe : (k' == k) = false := by simp [h]
    cases hm : m.lookup k' <;> simp [List.lookup_cons, hbe]

theorem map_fst_setKey_of_any {α : Type} (m : List (String × α)) (k : String) (v : α)
    (h : m.any (fun p => p.1 = k)) :
    (setKey m k v).map Prod.fst = m.map Prod.fst := by
  unfold setKey
  simp only [if_pos h, List.map_map]
  refine List.map_congr_left ?_
  intro p _
  by_cases hp : p.1 = k
  · simp [hp]
  · simp [hp]

theorem map_fst_setKey_of_not_any {α : Type} (m : List (String × α)) (k : String) (v : α)
    (h : ¬ m.any (fun p => p.1 = k)) :
    (setKey m k v).map Prod.fst = m.map Prod.fst ++ [k] := by
  unfold setKey
  simp [if_neg h]

theorem nodup_map_fst_setKey {α : Type} (m : List (String × α)) (k : String) (v : α)
    (h : (m.map Prod.fst).Nodup) : ((setKey m k v).map Prod.fst).Nodup := by
  by_cases hany : m.any (fun p => p.1 = k)
  · rw [map_fst_setKey_of_any m k v hany]; exact h
  · rw [map_fst_setKey_of_not_any m k v hany]
    have hk : k ∉ m.map Prod.fst := by
      intro hmem
      obtain ⟨p, hp, hpk⟩ := List.mem_map.mp hmem
      exact hany (List.any_eq_true.mpr ⟨p, hp, by simp [hpk]⟩)
    simp [List.nodup_append, h, hk]

theorem mem_setKey {α : Type} {m : List (String × α)} {k : String} {v : α} {p : String × α}
    (h : p ∈ setKey m k v) : p = (k, v) ∨ p ∈ m := by
  unfold setKey at h
  by_cases hany : m.any (fun q => q.1 = k)
  · simp only [if_pos hany, List.mem_map] at h
    obtain ⟨q, hq, hqe⟩ := h
    by_cases hqk : q.1 = k
    · simp only [if_pos hqk] at hqe
      exact Or.inl hqe.symm
    · simp only [if_neg hqk] at hqe
      exact Or.inr (hqe ▸ hq)
  · simp only [if_neg hany, List.mem_append, List.mem_singleton] at h
    rcases h with h | h
    · exact Or.inr h
    · exact Or.inl h

theorem lookup_isSome_iff {α : Type} (m : List (String × α)) (k : String) :
    (m.lookup k).isSome ↔ k ∈ m.map Prod.fst := by
  induction m with
  | nil => simp
  | cons p m ih =>
    obtain ⟨k', v'⟩ := p
    rcases hbe : (k == k') with _ | _
    · simp only [List.lookup_cons, hbe, List.map_cons, List.mem_cons, ← ih]
      constructor
      · intro h; exact Or.inr h
      · rintro (h | h)
        · exact absurd (by simp [h]) (by simp [hbe] : ¬ (k == k') = true)
        · exact h
    · have : k = k' := by simpa using hbe
      simp [List.lookup_cons, hbe, this]

theorem lookup_of_mem_nodup {α : Type} {m : List (String × α)} {p : String × α}
    (hnd : (m.map Prod.fst).Nodup) (hp : p ∈ m) : m.lookup p.1 = some p.2 := by
  induction m with
  | nil => cases hp
  | cons q m ih =>
    obtain ⟨k', v'⟩ := q
    rcases List.mem_cons.mp hp with h | h
    · subst h
      simp [List.lookup_cons]
    · have hne : p.1 ≠ k' := by
        intro hh
        have : k' ∈ m.map Prod.fst := hh ▸ List.mem_map.mpr ⟨p, h, rfl⟩
        exact (List.nodup_cons.mp hnd).1 this
      have : (p.1 == k') = false := by simp [hne]
      simp only [List.lookup_cons, this]
      exact ih (List.nodup_cons.mp hnd).2 h

/-! Behaviour of the log comparator and of the sort. -/

theorem tripleLt_trans {a b c : TxLog} (h1 : tripleLt a b) (h2 : tripleLt b c) :
    tripleLt a c := by
  unfold tripleLt at *
  omega

theorem tripleLt_trichotomy (a b : TxLog) :
    tripleLt a b ∨ tripleOf a = tripleOf b ∨ tripleLt b a := by
  unfold tripleLt tripleOf
  simp only [Prod.mk.injEq]
  omega

theorem tripleLt_of_eq_left {a b c : TxLog} (h : tripleOf a = tripleOf b)
    (h2 : tripleLt b c) : tripleLt a c := by
  unfold tripleOf at h
  simp only [Prod.mk.injEq] at h
  unfold tripleLt at *
  omega

theorem logCompare_of_eq (a b : TxLog) (h : tripleOf a = tripleOf b) :
    logCompare a b = .error () := by
  unfold tripleOf at h
  simp only [Prod.mk.injEq] at h
  unfold logCompare compareNumberKeys
  simp only [compareNumberKeysGo]
  have h1 : ((a.blockNumber : Int) - b.blockNumber ≠ 0) = False := by simp; omega
  have h2 : ((a.transactionIndex : Int) - b.transactionIndex ≠ 0) = False := by simp; omega
  have h3 : ((a.logIndex : Int) - b.logIndex ≠ 0) = False := by simp; omega
  simp only [h1, h2, h3, if_false]

theorem logCompare_of_lt (a b : TxLog) (h : tripleLt a b) :
    ∃ r, logCompare a b = .ok r ∧ r < 0 := by
  unfold tripleLt at h
  unfold logCompare compareNumberKeys
  simp only [compareNumberKeysGo]
  by_cases h1 : ((a.blockNumber : Int) - b.blockNumber ≠ 0)
  · exact ⟨(a.blockNumber : Int) - b.blockNumber, by simp only [if_pos h1], by omega⟩
  · simp only [if_neg h1]
    by_cases h2 : ((a.transactionIndex : Int) - b.transactionIndex ≠ 0)
    · exact ⟨(a.transactionIndex : Int) - b.transactionIndex, by simp only [if_pos h2], by omega⟩
    · simp only [if_neg h2]
      by_cases h3 : ((a.logIndex : Int) - b.logIndex ≠ 0)
      · exact ⟨(a.logIndex : Int) - b.logIndex, by simp only [if_pos h3], by omega⟩
      · exact absurd h (by omega)

theorem logCompare_of_gt (a b : TxLog) (h : tripleLt b a) :
    ∃ r, logCompare a b = .ok r ∧ 0 < r := by
  unfold tripleLt at h
  unfold logCompare compareNumberKeys
  simp only [compareNumberKeysGo]
  by_cases h1 : ((a.blockNumber : Int) - b.blockNumber ≠ 0)
  · exact ⟨(a.blockNumber : Int) - b.blockNumber, by simp only [if_pos h1], by omega⟩
  · simp only [if_neg h1]
    by_cases h2 : ((a.transactionIndex : Int) - b.transactionIndex ≠ 0)
    · exact ⟨(a.transactionIndex : Int) - b.transactionIndex, by simp only [if_pos h2], by omega⟩
    · simp only [if_neg h2]
      by_cases h3 : ((a.logIndex : Int) - b.logIndex ≠ 0)
      · exact ⟨(a.logIndex : Int) - b.logIndex, by simp only [if_pos h3], by omega⟩
      · exact absurd h (by omega)

theorem insertSorted_ok (x : TxLog) (l : List TxLog)
    (hx : ∀ y ∈ l, tripleOf x ≠ tripleOf y)
    (hl : l.Pairwise tripleLt) :
    ∃ out, insertSorted logCompare x l = .ok out ∧ out.Perm (x :: l) ∧
      out.Pairwise tripleLt := by
  induction l with
  | nil => exact ⟨[x], rfl, List.Perm.refl _, by simp⟩
  | cons y ys ih =>
    have hxy : tripleOf x ≠ tripleOf y := hx y (by simp)
    rcases tripleLt_trichotomy x y with hlt | heq | hgt
    · obtain ⟨r, hr, hrneg⟩ := logCompare_of_lt x y hlt
      refine ⟨x :: y :: ys, ?_, List.Perm.refl _, ?_⟩
      · simp only [insertSorted, hr]
        simp [le_of_lt hrneg]
      · refine List.Pairwise.cons ?_ hl
        intro z hz
        rcases List.mem_cons.mp hz with h | h
        · exact h ▸ hlt
        · exact tripleLt_trans hlt (List.rel_of_pairwise_cons hl h)
    · exact absurd heq hxy
    · obtain ⟨r, hr, hrpos⟩ := logCompare_of_gt x y hgt
      obtain ⟨rest, hrest, hperm, hpw⟩ :=
        ih (fun z hz => hx z (by simp [hz])) (List.Pairwise.of_cons hl)
      refine ⟨y :: rest, ?_, ?_, ?_⟩
      · simp only [insertSorted, hr, if_neg (not_le.mpr hrpos), hrest]
      · exact (hperm.cons y).trans (List.Perm.swap x y ys)
      · refine List.Pairwise.cons ?_ hpw
        intro z hz
        rcases List.mem_cons.mp (hperm.mem_iff.mp hz) with h | h
        · exact h ▸ hgt
        · exact List.rel_of_pairwise_cons hl h

theorem sortLogs_ok (l : List TxLog) :
    l.Pairwise (fun a b => tripleOf a ≠ tripleOf b) →
    ∃ out, sortLogs logCompare l = .ok out ∧ out.Perm l ∧
      out.Pairwise tripleLt := by
  induction l with
  | nil => exact fun _ => ⟨[], rfl, List.Perm.refl _, by simp⟩
  | cons x xs ih =>
    intro h
    obtain ⟨s, hs, hperm, hpw⟩ := ih (List.Pairwise.of_cons h)
    have hx : ∀ y ∈ s, tripleOf x ≠ tripleOf y := by
      intro y hy
      exact List.rel_of_pairwise_cons h (hperm.mem_iff.mp hy)
    obtain ⟨out, hout, hperm2, hpw2⟩ := insertSorted_ok x s hx hpw
    exact ⟨out, by simp only [sortLogs, hs, hout], hperm2.trans (hperm.cons x), hpw2⟩

theorem insertSorted_perm_of_ok {cmp : TxLog → TxLog → Except Unit Int} {x : TxLog}
    {l out : List TxLog} (h : insertSorted cmp x l = .ok out) : out.Perm (x :: l) := by
  induction l generalizing out with
  | nil =>
    simp only [insertSorted] at h
    cases h
    exact List.Perm.refl _
  | cons y ys ih =>
    simp only [insertSorted] at h
    split at h
    · exact absurd h (by simp)
    · split at h
      · cases h
        exact List.Perm.refl _
      · split at h
        · exact absurd h (by simp)
        · next rest hrest =>
          cases h
          exact ((ih hrest).cons y).trans (List.Perm.swap x y ys)

theorem sortLogs_perm_of_ok {cmp : TxLog → TxLog → Except Unit Int}
    {l out : List TxLog} (h : sortLogs cmp l = .ok out) : out.Perm l := by
  induction l generalizing out with
  | nil =>
    simp only [sortLogs] at h
    cases h
    exact List.Perm.refl _
  | cons x xs ih =>
    simp only [sortLogs] at h
    split at h
    · exact absurd h (by simp)
    · next s hs => exact (insertSorted_perm_of_ok h).trans ((ih hs).cons x)

/-! Splitting a joined key recovers its two components when neither
contains the glue character. -/

theorem splitChars_of_not_mem (sep : Char) (l : List Char) (h : sep ∉ l) :
    splitChars sep l = [l] := by
  induction l with
  | nil => rfl
  | cons c cs ih =>
    have hc : ¬ c = sep := fun hh => h (hh ▸ List.mem_cons_self c cs)
    have hcs : sep ∉ cs := fun hh => h (List.mem_cons_of_mem c hh)
    simp only [splitChars, if_neg hc, ih hcs]

theorem splitChars_append (sep : Char) (a b : List Char) (ha : sep ∉ a) :
    splitChars sep (a ++ sep :: b) = a :: splitChars sep b := by
  induction a with
  | nil => simp [splitChars]
  | cons c cs ih =>
    have hc : ¬ c = sep := fun hh => ha (hh ▸ List.mem_cons_self c cs)
    have hcs : sep ∉ cs := fun hh => ha (List.mem_cons_of_mem c hh)
    rw [List.cons_append]
    simp only [splitChars, if_neg hc]
    rw [ih hcs]

theorem toList_approvalKeyOf (c s : String) :
    (approvalKeyOf c s).toList = c.toList ++ '.' :: s.toList := by
  show (c ++ "." ++ s).data = c.data ++ '.' :: s.data
  simp [String.data_append]

theorem stringMk_toList (s : String) : String.mk s.toList = s := by
  cases s
  rfl

theorem jsSplit_approvalKeyOf (c s : String) (hc : '.' ∉ c.toList)
    (hs : '.' ∉ s.toList) : jsSplit '.' (approvalKeyOf c s) = [c, s] := by
  unfold jsSplit
  rw [toList_approvalKeyOf, splitChars_append '.' _ _ hc, splitChars_of_not_mem '.' _ hs]
  simp [stringMk_toList]

theorem contractOfKey_approvalKeyOf (c s : String) (hc : '.' ∉ c.toList)
    (hs : '.' ∉ s.toList) : contractOfKey (approvalKeyOf c s) = c := by
  unfold contractOfKey
  rw [jsSplit_approvalKeyOf c s hc hs]
  rfl

theorem spenderOfKey_approvalKeyOf (c s : String) (hc : '.' ∉ c.toList)
    (hs : '.' ∉ s.toList) : spenderOfKey (approvalKeyOf c s) = s := by
  unfold spenderOfKey
  rw [jsSplit_approvalKeyOf c s hc hs]
  rfl

theorem append_sep_inj {sep : Char} {a' b' a b : List Char} (ha' : sep ∉ a')
    (hb' : sep ∉ b') (h : a' ++ sep :: b' = a ++ sep :: b) : a' = a ∧ b' = b := by
  induction a' generalizing a with
  | nil =>
    cases a with
    | nil =>
      simp only [List.nil_append] at h
      cases h
      exact ⟨rfl, rfl⟩
    | cons x a2 =>
      simp only [List.nil_append, List.cons_append] at h
      injection h with h1 h2
      exact absurd (h2 ▸ List.mem_append_right a2 (List.mem_cons_self sep b) :
        sep ∈ b') hb'
  | cons x a2' ih =>
    cases a with
    | nil =>
      simp only [List.cons_append, List.nil_append] at h
      injection h with h1 h2
      exact absurd (h1 ▸ List.mem_cons_self x a2') ha'
    | cons y a2 =>
      simp only [List.cons_append] at h
      injection h with h1 h2
      obtain ⟨e1, e2⟩ := ih (fun hh => ha' (List.mem_cons_of_mem x hh)) h2
      exact ⟨by rw [h1, e1], e2⟩

theorem approvalKeyOf_inj {c' s' c s : String} (hc' : '.' ∉ c'.toList)
    (hs' : '.' ∉ s'.toList) (h : approvalKeyOf c' s' = approvalKeyOf c s) :
    c' = c ∧ s' = s := by
  have hdata : c'.toList ++ '.' :: s'.toList = c.toList ++ '.' :: s.toList := by
    rw [← toList_approvalKeyOf, ← toList_approvalKeyOf, h]
  obtain ⟨e1, e2⟩ := append_sep_inj hc' hs' hdata
  exact ⟨by rw [← stringMk_toList c', e1, stringMk_toList],
    by rw [← stringMk_toList s', e2, stringMk_toList]⟩

/-! Characterization of the `approvalMap` fold: latest event per key wins. -/

theorem exceptBind_ok {ε α β : Type} (a : α) (g : α → Except ε β) :
    (Except.ok a >>= g) = g a := rfl

theorem exceptBind_error {ε α β : Type} (e : ε) (g : α → Except ε β) :
    ((Except.error e : Except ε α) >>= g) = .error e := rfl

theorem foldlM_concat {α β : Type} (f : β → α → Except Unit β) (init : β)
    (ls : List α) (x : α) :
    List.foldlM f init (ls ++ [x]) =
      match List.foldlM f init ls with
      | .error e => .error e
      | .ok b => f b x := by
  induction ls generalizing init with
  | nil =>
    show List.foldlM f init [x] = f init x
    simp [List.foldlM]
  | cons a ls ih =>
    simp only [List.cons_append, List.foldlM_cons]
    cases hf : f init a with
    | error e => rfl
    | ok b => exact ih b

theorem decodeLog_ok_fields {addressLower : String} {l : TxLog} {c s : String}
    {amt : Nat} : decodeLog addressLower l = .ok (c, s, amt) →
    c = l.address ∧ amt = l.data := by
  intro h
  unfold decodeLog at h
  repeat' split at h
  all_goals first
  | (cases h; exact ⟨rfl, rfl⟩)
  | cases h

theorem decodeKey_isSome_exists {addressLower : String} {l : TxLog}
    (h : (decodeKey addressLower l).isSome) :
    ∃ c s amt, decodeLog addressLower l = .ok (c, s, amt) ∧
      decodeKey addressLower l = some (approvalKeyOf c s) := by
  cases hd : decodeLog addressLower l with
  | error e =>
    unfold decodeKey at h
    rw [hd] at h
    simp at h
  | ok v =>
    obtain ⟨c, s, amt⟩ := v
    refine ⟨c, s, amt, rfl, ?_⟩
    unfold decodeKey
    rw [hd]

theorem decodedDotFree_spec {addressLower : String} {l : TxLog}
    (h : decodedDotFree addressLower l = true) :
    ∃ c s amt, decodeLog addressLower l = .ok (c, s, amt) ∧ '.' ∉ c.toList ∧
      '.' ∉ s.toList ∧ decodeKey addressLower l = some (approvalKeyOf c s) := by
  unfold decodedDotFree at h
  split at h
  · next c s amt heq =>
    refine ⟨c, s, amt, heq, ?_, ?_, ?_⟩
    · simp only [Bool.and_eq_true, Bool.not_eq_true'] at h
      simpa using h.1
    · simp only [Bool.and_eq_true, Bool.not_eq_true'] at h
      simpa using h.2
    · unfold decodeKey
      rw [heq]
  · cases h

theorem eventsForKey_append (addressLower k : String) (ls : List TxLog) (x : TxLog) :
    eventsForKey addressLower k (ls ++ [x]) =
      eventsForKey addressLower k ls ++
        (if decodeKey addressLower x = some k then [x] else []) := by
  unfold eventsForKey
  rw [List.filter_append]
  by_cases h : decodeKey addressLower x = some k
  · have hb : (decodeKey addressLower x == some k) = true := by simpa using h
    simp [List.filter, hb, h]
  · have hb : (decodeKey addressLower x == some k) = false := by simpa using h
    simp [List.filter, hb, h]

theorem lastAmount_append_hit {addressLower k : String} {ls : List TxLog} {x : TxLog}
    (h : decodeKey addressLower x = some k) :
    lastAmount addressLower k (ls ++ [x]) = some x.data := by
  unfold lastAmount
  rw [eventsForKey_append, if_pos h]
  simp [List.getLast?_concat]

theorem lastAmount_append_miss {addressLower k : String} {ls : List TxLog} {x : TxLog}
    (h : ¬ decodeKey addressLower x = some k) :
    lastAmount addressLower k (ls ++ [x]) = lastAmount addressLower k ls := by
  unfold lastAmount
  rw [eventsForKey_append, if_neg h]
  simp

theorem buildApprovalMap_char (addressLower : String) (logs : List TxLog) :
    (∀ l ∈ logs, (decodeKey addressLower l).isSome) →
    ∃ m, buildApprovalMap addressLower logs = .ok m ∧
      (∀ k, m.lookup k = (lastAmount addressLower k logs).map
          (fun amount => ({ amount := amount } : ApprovalData))) ∧
      (m.map Prod.fst).Nodup ∧
      (∀ p ∈ m, ∃ l ∈ logs, decodeKey addressLower l = some p.1) := by
  induction logs using List.reverseRecOn with
  | nil =>
    intro _
    refine ⟨[], rfl, ?_, by simp, by simp⟩
    intro k
    simp [lastAmount, eventsForKey]
  | append_singleton ls x ih =>
    intro hdec
    obtain ⟨m, hm, hlook, hnd, hprov⟩ :=
      ih (fun y hy => hdec y (List.mem_append_left _ hy))
    obtain ⟨c, s, amt, hdecl, hkey⟩ := decodeKey_isSome_exists (hdec x (by simp))
    have hbuild : buildApprovalMap addressLower (ls ++ [x]) =
        .ok (setKey m (approvalKeyOf c s) { amount := amt }) := by
      unfold buildApprovalMap at hm ⊢
      rw [foldlM_concat, hm]
      unfold processLog
      rw [hdecl]
    have hamt : amt = x.data := (decodeLog_ok_fields hdecl).2
    refine ⟨setKey m (approvalKeyOf c s) { amount := amt }, hbuild, ?_, ?_, ?_⟩
    · intro k
      by_cases hk : k = approvalKeyOf c s
      · subst hk
        rw [lookup_setKey_self, lastAmount_append_hit hkey, hamt]
        rfl
      · rw [lookup_setKey_ne m _ k _ hk, hlook k,
          lastAmount_append_miss
            (fun hh => hk (by rw [hkey] at hh; injection hh with h2; exact h2.symm))]
    · exact nodup_map_fst_setKey m _ _ hnd
    · intro p hp
      rcases mem_setKey hp with h | h
      · exact ⟨x, by simp, by rw [hkey, h]⟩
      · obtain ⟨l, hl, hlk⟩ := hprov p h
        exact ⟨l, List.mem_append_left _ hl, hlk⟩

/-! The allowance pass as a per-entry update, and `getApprovals` inversion. -/

theorem allowanceHandler_amount (results : String → Except Unit Nat) (key : String)
    (d : ApprovalData) : (allowanceHandler results key d).amount = d.amount := by
  unfold allowanceHandler
  cases results key <;> rfl

theorem allowancePass_eq_map (m : List (String × ApprovalData)) (valid : List String)
    (results : String → Except Unit Nat) :
    valid.Nodup →
    allowancePass m valid results =
      m.map (fun p =>
        if p.1 ∈ valid then (p.1, allowanceHandler results p.1 p.2) else p) := by
  induction valid generalizing m with
  | nil => intro _; simp [allowancePass]
  | cons k0 rest ih =>
    intro hnd
    have hk0 : k0 ∉ rest := (List.nodup_cons.mp hnd).1
    have step : allowancePass m (k0 :: rest) results =
        allowancePass (updateKey m k0 (allowanceHandler results k0)) rest results := rfl
    rw [step, ih _ (List.nodup_cons.mp hnd).2]
    unfold updateKey
    rw [List.map_map]
    refine List.map_congr_left ?_
    intro p _
    by_cases h1 : p.1 = k0
    · simp [Function.comp, h1, hk0]
    · simp only [Function.comp, if_neg h1]
      by_cases h2 : p.1 ∈ rest
      · have hmem : p.1 ∈ k0 :: rest := List.mem_cons_of_mem _ h2
        simp [h2, hmem]
      · have hmem : p.1 ∉ k0 :: rest := by simp [h1, h2]
        simp [h2, hmem]

theorem getApprovals_ok_inv {address : String} {logs : List TxLog}
    {allowanceResults : String → Except Unit Nat} {report : ApprovalReport}
    (h : getApprovals address logs allowanceResults = .ok report) :
    ∃ out m0, sortLogs logCompare logs = .ok out ∧
      buildApprovalMap (jsToLower address) out = .ok m0 ∧
      report = ApprovalReport.mk address ((allowancePass m0 (validApprovalKeys m0)
        allowanceResults).map entryToApproval) := by
  unfold getApprovals at h
  split at h
  · exact absurd h (by simp)
  · next out hout =>
    dsimp only at h
    split at h
    · exact absurd h (by simp)
    · next m0 hm0 =>
      cases h
      exact ⟨out, m0, hout, hm0, rfl⟩

theorem pairwise_getLast_le {E : List TxLog} (h : E.Pairwise tripleLt) {x : TxLog}
    (hx : E.getLast? = some x) : ∀ y ∈ E, tripleLe y x := by
  induction E with
  | nil => cases hx
  | cons e E ih =>
    cases E with
    | nil =>
      have : e = x := by simpa using hx
      intro y hy
      have : y = x := by simpa [← this] using hy
      exact Or.inr (this ▸ rfl)
    | cons e2 E2 =>
      have hx2 : (e2 :: E2).getLast? = some x := by
        simpa [List.getLast?_cons_cons] using hx
      intro y hy
      rcases List.mem_cons.mp hy with h1 | h1
      · have hxm : x ∈ e2 :: E2 := List.mem_of_getLast?_eq_some hx2
        exact h1 ▸ Or.inl (List.rel_of_pairwise_cons h hxm)
      · exact ih (List.Pairwise.of_cons h) hx2 y h1

/-- C1: for every list of Approval logs passed through reconstruction in
`getApprovals` (each log decodes with dot-free contract and spender, and
event positions are pairwise distinct), the reconstructed approval set holds
exactly one entry per `(contract, spender)` key, and that entry's amount is
the amount of the event with the greatest
`(blockNumber, transactionIndex, logIndex)` among the events of that key. -/
theorem getApprovals_latest_wins (address : String) (logs : List TxLog)
    (allowanceResults : String → Except Unit Nat)
    (hdec : ∀ l ∈ logs, decodedDotFree (jsToLower address) l = true)
    (hdist : logs.Pairwise (fun a b => tripleOf a ≠ tripleOf b)) :
    ∃ report, getApprovals address logs allowanceResults = .ok report ∧
      ∀ c s,
        ((report.approvals.filter
            (fun a => a.contract == c && a.spender == s)).length =
          if eventsForKey (jsToLower address) (approvalKeyOf c s) logs = []
          then 0 else 1) ∧
        (∀ a ∈ report.approvals, a.contract = c → a.spender = s →
          ∃ l ∈ eventsForKey (jsToLower address) (approvalKeyOf c s) logs,
            a.amount = l.data ∧
            ∀ l2 ∈ eventsForKey (jsToLower address) (approvalKeyOf c s) logs,
              tripleLe l2 l) := by
  obtain ⟨out, hout, hperm, hpw⟩ := sortLogs_ok logs hdist
  have hdecOut : ∀ l ∈ out, decodedDotFree (jsToLower address) l = true :=
    fun l hl => hdec l (hperm.mem_iff.mp hl)
  have hsome : ∀ l ∈ out, (decodeKey (jsToLower address) l).isSome := by
    intro l hl
    obtain ⟨c', s', amt', _h1, _h2, _h3, hk⟩ := decodedDotFree_spec (hdecOut l hl)
    rw [hk]
    rfl
  obtain ⟨m0, hm0, hlook, hnd, hprov⟩ :=
    buildApprovalMap_char (jsToLower address) out hsome
  have hvalidnd : (validApprovalKeys m0).Nodup := List.Nodup.filter _ hnd
  have hentry : ∀ p ∈ m0, ∃ c' s', p.1 = approvalKeyOf c' s' ∧
      '.' ∉ c'.toList ∧ '.' ∉ s'.toList := by
    intro p hp
    obtain ⟨l, hl, hlk⟩ := hprov p hp
    obtain ⟨c', s', amt', _hd, hc', hs', hk⟩ := decodedDotFree_spec (hdecOut l hl)
    rw [hlk] at hk
    injection hk with hk2
    exact ⟨c', s', hk2, hc', hs'⟩
  have hga : ∀ p : String × ApprovalData,
      ((entryToApproval (if p.1 ∈ validApprovalKeys m0
          then (p.1, allowanceHandler allowanceResults p.1 p.2) else p)).contract =
        contractOfKey p.1) ∧
      ((entryToApproval (if p.1 ∈ validApprovalKeys m0
          then (p.1, allowanceHandler allowanceResults p.1 p.2) else p)).spender =
        spenderOfKey p.1) ∧
      ((entryToApproval (if p.1 ∈ validApprovalKeys m0
          then (p.1, allowanceHandler allowanceResults p.1 p.2) else p)).amount =
        p.2.amount) := by
    intro p
    by_cases h : p.1 ∈ validApprovalKeys m0
    · simp [entryToApproval, h, allowanceHandler_amount]
    · simp [entryToApproval, h]
  have hApp : (allowancePass m0 (validApprovalKeys m0) allowanceResults).map
      entryToApproval =
      m0.map (fun p => entryToApproval (if p.1 ∈ validApprovalKeys m0
        then (p.1, allowanceHandler allowanceResults p.1 p.2) else p)) := by
    rw [allowancePass_eq_map _ _ _ hvalidnd, List.map_map]
    rfl
  refine ⟨ApprovalReport.mk address ((allowancePass m0 (validApprovalKeys m0)
    allowanceResults).map entryToApproval), ?_, ?_⟩
  · unfold getApprovals
    rw [hout]
    dsimp only
    rw [hm0]
  · intro c s
    have hcong : ∀ p ∈ m0,
        (((fun a => a.contract == c && a.spender == s) ∘ fun p =>
          entryToApproval (if p.1 ∈ validApprovalKeys m0
            then (p.1, allowanceHandler allowanceResults p.1 p.2) else p)) p) =
        (p.1 == approvalKeyOf c s) := by
      intro p hp
      simp only [Function.comp_apply]
      obtain ⟨c', s', hpk, hc', hs'⟩ := hentry p hp
      obtain ⟨e1, e2, _e3⟩ := hga p
      have hcon : (entryToApproval (if p.1 ∈ validApprovalKeys m0
          then (p.1, allowanceHandler allowanceResults p.1 p.2) else p)).contract = c' := by
        rw [e1, hpk, contractOfKey_approvalKeyOf c' s' hc' hs']
      have hspn : (entryToApproval (if p.1 ∈ validApprovalKeys m0
          then (p.1, allowanceHandler allowanceResults p.1 p.2) else p)).spender = s' := by
        rw [e2, hpk, spenderOfKey_approvalKeyOf c' s' hc' hs']
      simp only [hcon, hspn]
      by_cases hcs : c' = c ∧ s' = s
      · have hP : p.1 = approvalKeyOf c s := by rw [hpk, hcs.1, hcs.2]
        simp [hcs.1, hcs.2, hP]
      · have h1 : ¬ p.1 = approvalKeyOf c s := by
          intro hh
          exact hcs (approvalKeyOf_inj hc' hs' (hpk ▸ hh))

        have hr : (p.1 == approvalKeyOf c s) = false := beq_eq_false_iff_ne.mpr h1
        rw [hr]
        rcases not_and_or.mp hcs with h | h
        · simp [beq_eq_false_iff_ne.mpr h]
        · simp [beq_eq_false_iff_ne.mpr h]
    constructor
    · show ((_ : List Approval).filter _).length = _
      rw [hApp, List.filter_map, List.length_map, List.filter_congr hcong]
      have hcnt : (m0.filter (fun p => p.1 == approvalKeyOf c s)).length =
          List.count (approvalKeyOf c s) (m0.map Prod.fst) := by
        rw [← List.countP_eq_length_filter, List.count_eq_countP, List.countP_map]
        rfl
      rw [hcnt]
      have hpermE : (eventsForKey (jsToLower address) (approvalKeyOf c s) out).Perm
          (eventsForKey (jsToLower address) (approvalKeyOf c s) logs) :=
        hperm.filter _
      by_cases hmem : approvalKeyOf c s ∈ m0.map Prod.fst
      · rw [List.count_eq_one_of_mem hnd hmem]
        have hsome2 : (m0.lookup (approvalKeyOf c s)).isSome :=
          (lookup_isSome_iff _ _).mpr hmem
        rw [hlook (approvalKeyOf c s)] at hsome2
        have hne_out : eventsForKey (jsToLower address) (approvalKeyOf c s) out ≠ [] := by
          intro hnil
          unfold lastAmount at hsome2
          rw [hnil] at hsome2
          simp at hsome2
        have hne_logs : eventsForKey (jsToLower address) (approvalKeyOf c s) logs ≠ [] := by
          intro hnil
          rw [hnil] at hpermE
          exact hne_out hpermE.eq_nil
        rw [if_neg hne_logs]
      · rw [List.count_eq_zero_of_not_mem hmem]
        have hlnone : m0.lookup (approvalKeyOf c s) = none := by
          cases ho : m0.lookup (approvalKeyOf c s) with
          | none => rfl
          | some v =>
            exact absurd ((lookup_isSome_iff _ _).mp (by rw [ho]; rfl)) hmem
        have hlk := hlook (approvalKeyOf c s)
        rw [hlnone] at hlk
        have hla : lastAmount (jsToLower address) (approvalKeyOf c s) out = none := by
          cases hl2 : lastAmount (jsToLower address) (approvalKeyOf c s) out with
          | none => rfl
          | some v => rw [hl2] at hlk; simp at hlk
        have hout_nil : eventsForKey (jsToLower address) (approvalKeyOf c s) out = [] := by
          unfold lastAmount at hla
          have := (List.getLast?_isSome
            (l := (eventsForKey (jsToLower address) (approvalKeyOf c s) out).map
              (fun l => l.data)))
          rw [hla] at this
          simp only [Option.isSome_none, Bool.false_eq_true, false_iff, not_not] at this
          exact List.map_eq_nil_iff.mp this
        have : eventsForKey (jsToLower address) (approvalKeyOf c s) logs = [] := by
          rw [hout_nil] at hpermE
          exact (hpermE.symm.eq_nil)
        rw [if_pos this]
    · intro a ha hac has
      rw [hApp] at ha
      obtain ⟨p, hp, hpa⟩ := List.mem_map.mp ha
      obtain ⟨c', s', hpk, hc', hs'⟩ := hentry p hp
      obtain ⟨e1, e2, e3⟩ := hga p
      have hcc : c' = c := by
        have h2 := e1
        rw [hpa, hac, hpk, contractOfKey_approvalKeyOf c' s' hc' hs'] at h2
        exact h2.symm
      have hss : s' = s := by
        have h2 := e2
        rw [hpa, has, hpk, spenderOfKey_approvalKeyOf c' s' hc' hs'] at h2
        exact h2.symm
      have hPK : p.1 = approvalKeyOf c s := by rw [hpk, hcc, hss]
      have hamt : a.amount = p.2.amount := by rw [← hpa, e3]
      have hlookp := lookup_of_mem_nodup hnd hp
      rw [hPK, hlook (approvalKeyOf c s)] at hlookp
      obtain ⟨amt0, hla, hval⟩ := Option.map_eq_some'.mp hlookp
      have hpamt : p.2.amount = amt0 := by rw [← hval]
      unfold lastAmount at hla
      rw [List.getLast?_map] at hla
      obtain ⟨l0, hlast, hl0d⟩ := Option.map_eq_some'.mp hla
      have hl0mem : l0 ∈ eventsForKey (jsToLower address) (approvalKeyOf c s) out :=
        List.mem_of_getLast?_eq_some hlast
      have hpwE : (eventsForKey (jsToLower address) (approvalKeyOf c s) out).Pairwise
          tripleLt := List.Pairwise.filter _ hpw
      have hmax := pairwise_getLast_le hpwE hlast
      have hpermE : (eventsForKey (jsToLower address) (approvalKeyOf c s) out).Perm
          (eventsForKey (jsToLower address) (approvalKeyOf c s) logs) :=
        hperm.filter _
      refine ⟨l0, hpermE.mem_iff.mp hl0mem, ?_, ?_⟩
      · rw [hamt, hpamt, ← hl0d]
      · intro l2 hl2
        exact hmax l2 (hpermE.mem_iff.mpr hl2)

/-- Witness for C1: the spec's end-to-end scenario — two events for
`(contractC, spenderB)`, amount 100 at block 10 and amount 50 at block 20;
the reconstructed set has the single approval with amount 50. -/
theorem getApprovals_latest_wins_witness :
    (∃ report, getApprovals addrA [log100, log50] (fun _ => .ok 42) = .ok report ∧
      ∀ c s,
        ((report.approvals.filter
            (fun a => a.contract == c && a.spender == s)).length =
          if eventsForKey (jsToLower addrA) (approvalKeyOf c s) [log100, log50] = []
          then 0 else 1) ∧
        (∀ a ∈ report.approvals, a.contract = c → a.spender = s →
          ∃ l ∈ eventsForKey (jsToLower addrA) (approvalKeyOf c s) [log100, log50],
            a.amount = l.data ∧
            ∀ l2 ∈ eventsForKey (jsToLower addrA) (approvalKeyOf c s) [log100, log50],
              tripleLe l2 l)) ∧
    getApprovals addrA [log100, log50] (fun _ => .ok 42) =
      .ok (ApprovalReport.mk addrA
        [Approval.mk contractC spenderB 50 (some 42) false]) :=
  ⟨getApprovals_latest_wins addrA [log100, log50] (fun _ => .ok 42)
    (by decide) (by decide), by decide⟩

/-- C2 (code bug): on logs holding one zero-address-spender event (amount
77 at block 5) and one ordinary event for `(contractC, spenderB)` (amount
100 at block 10), the allowance batch has exactly one item — the
`(contractC, spenderB)` key — so the awaited batch promise settles and the
source genuinely returns; the returned report still contains the
zero-address-spender approval, only without an `allowance` (it was excluded
from the batch, not from the report).  The final list is built from
`Object.keys(approvalMap)` (line 212), not from the filtered
`validApprovals`, so the claimed discarding does not happen.  The second and
third conjuncts exhibit the run's `approvalMap` and its nonempty filtered
key list, and the fourth that a one-item batch resolves. -/
theorem getApprovals_keeps_nullAddress_spender :
    getApprovals addrA [log100, logZeroSpender] (fun _ => .ok 42) =
      .ok (ApprovalReport.mk addrA
        [Approval.mk contractC nullAddress 77 none false,
         Approval.mk contractC spenderB 100 (some 42) false]) ∧
    buildApprovalMap (jsToLower addrA) [logZeroSpender, log100] =
      .ok [(approvalKeyOf contractC nullAddress, ApprovalData.mk 77 none false),
           (approvalKeyOf contractC spenderB, ApprovalData.mk 100 none false)] ∧
    validApprovalKeys
        [(approvalKeyOf contractC nullAddress, ApprovalData.mk 77 none false),
         (approvalKeyOf contractC spenderB, ApprovalData.mk 100 none false)] =
      [approvalKeyOf contractC spenderB] ∧
    makeBatchRequestPromiseResolves [approvalKeyOf contractC spenderB] = true ∧
    ((ApprovalReport.mk addrA
      [Approval.mk contractC nullAddress 77 none false,
       Approval.mk contractC spenderB 100 (some 42) false]).approvals.any
      (fun a => a.spender == nullAddress)) = true := by decide

/-- C3 (code bug): with `reputations` explicitly assigning reputation 0 to
`contractC` (blacklisted), an approval on `contractC` with exchange rate 2
and fetched balance 100 gets risk 200, not 0 — `reputations[address] ||
default` treats the explicit 0 as falsy, so the blacklist entry is ignored
and the baseline reputation 1 is used.  (The risk is 200 rather than
2·min(50, 100) = 100 because of the independent `BN.min` string defeat, see
C6; either way it is nonzero, refuting the claim's risk = 0.) -/
theorem blacklisted_reputation_risk_nonzero :
    addApprovalRiskScore (ApprovalReport.mk addrA [apprC]) repsBlacklistC []
      (fun _ => .ok 100) (fun _ => .ok 18) (fun _ => .ok [1, 2]) =
      ScoredReport.mk addrA [ScoredApproval.mk contractC spenderB 50 none false 200 100] ∧
    (200 : ℚ) ≠ 0 := by
  constructor
  · simp +decide [addApprovalRiskScore, apprC, repsBlacklistC, jsSetDedup, balancePass,
      decimalsPass, exchangeRatePass, setKey, getRiskScore, reputationOf, jsOrQ,
      amountAtRisk, bnMinJs, balanceSlotValue, rateOfAmounts,
      getTokenWeiExchangeRateRequest, List.lookup]
    norm_num
  · norm_num

/-- C4 (code bug): with an empty item collection the promise of
`makeBatchRequestPromise` never resolves — `resolve()` is only reachable
inside a per-item callback and no callback ever fires — while
`batch.execute()` is still invoked; a nonempty collection does resolve
(after its last callback). -/
theorem empty_batch_never_resolves :
    makeBatchRequestPromiseResolves ([] : List String) = false ∧
    makeBatchRequestPromiseExecutes ([] : List String) = true ∧
    ∀ n : Nat, makeBatchRequestPromiseResolves (List.range (n + 1)) = true := by
  refine ⟨rfl, rfl, ?_⟩
  intro n
  simp [makeBatchRequestPromiseResolves]

/-- C10 (code bug): on two order-identical log entries (equal blockNumber,
transactionIndex and logIndex) the comparator of `compareNumberKeys` reaches
`return result` with `result` out of scope and throws instead of returning
0, and `getApprovals` on a log list containing the two entries aborts. -/
theorem comparator_tie_throws_and_aborts :
    logCompare logTieA logTieB = .error () ∧
    getApprovals addrA [logTieA, logTieB] (fun _ => .ok 0) = .error () := by decide

/-! Lookup characterizations of the enrichment passes. -/

theorem bnMinJs_bn_zero (a : Nat) : bnMinJs a (.bn 0) = 0 := by
  simp [bnMinJs]

theorem bnMinJs_rawString (a b : Nat) : bnMinJs a (.rawString b) = b := rfl

theorem mem_jsSetDedup (l : List String) (x : String) :
    x ∈ jsSetDedup l ↔ x ∈ l := by
  induction l using jsSetDedup.induct with
  | case1 => simp [jsSetDedup]
  | case2 y ys ih =>
    rw [jsSetDedup]
    by_cases hxy : x = y
    · simp [hxy]
    · simp only [List.mem_cons, hxy, false_or, ih, List.mem_filter]
      constructor
      · intro h; exact h.1
      · intro h; exact ⟨h, by simp [hxy]⟩

theorem jsSetDedup_nodup (l : List String) : (jsSetDedup l).Nodup := by
  induction l using jsSetDedup.induct with
  | case1 => simp [jsSetDedup]
  | case2 y ys ih =>
    rw [jsSetDedup]
    refine List.nodup_cons.mpr ⟨?_, ih⟩
    intro hmem
    have := (mem_jsSetDedup _ _).mp hmem
    simp at this

theorem balancePass_lookup (approvals : List Approval)
    (balanceResults : String → Except Unit Nat) (c : String) :
    (∃ a ∈ approvals, a.contract = c) →
    (balancePass approvals balanceResults).lookup c =
      some (match balanceResults c with
            | .error _ => .jsNumberZero
            | .ok b => .decimalString b) := by
  induction approvals using List.reverseRecOn with
  | nil => rintro ⟨a, ha, _⟩; cases ha
  | append_singleton xs x ih =>
    intro hex
    have hstep : balancePass (xs ++ [x]) balanceResults =
        setKey (balancePass xs balanceResults) x.contract
          (match balanceResults x.contract with
           | .error _ => .jsNumberZero
           | .ok b => .decimalString b) := by
      unfold balancePass
      rw [List.foldl_append]
      rfl
    rw [hstep]
    by_cases hc : x.contract = c
    · subst hc
      rw [lookup_setKey_self]
    · rw [lookup_setKey_ne _ _ _ _ (fun hh => hc hh.symm)]
      obtain ⟨a, ha, hac⟩ := hex
      rcases List.mem_append.mp ha with h | h
      · exact ih ⟨a, h, hac⟩
      · have : a = x := by simpa using h
        exact absurd (this ▸ hac) hc

theorem decimalsPass_lookup (tokenAddresses : List String)
    (decimalsResults : String → Except Unit Nat) (c : String) :
    c ∈ tokenAddresses →
    (decimalsPass tokenAddresses decimalsResults).lookup c =
      some (match decimalsResults c with | .error _ => 18 | .ok d => d) := by
  induction tokenAddresses using List.reverseRecOn with
  | nil => intro h; cases h
  | append_singleton xs x ih =>
    intro hmem
    have hstep : decimalsPass (xs ++ [x]) decimalsResults =
        setKey (decimalsPass xs decimalsResults) x
          (match decimalsResults x with | .error _ => 18 | .ok d => d) := by
      unfold decimalsPass
      rw [List.foldl_append]
      rfl
    rw [hstep]
    by_cases hc : x = c
    · subst hc
      rw [lookup_setKey_self]
    · rw [lookup_setKey_ne _ _ _ _ (fun hh => hc hh.symm)]
      rcases List.mem_append.mp hmem with h | h
      · exact ih h
      · exact absurd (by simpa using h : c = x) (fun hh => hc hh.symm)

theorem buildApprovalMap_nodup_keys (addressLower : String) (logs : List TxLog)
    (m0 : List (String × ApprovalData)) :
    buildApprovalMap addressLower logs = .ok m0 → (m0.map Prod.fst).Nodup := by
  suffices h : ∀ init : List (String × ApprovalData), (init.map Prod.fst).Nodup →
      List.foldlM (processLog addressLower) init logs = .ok m0 →
      (m0.map Prod.fst).Nodup from
    fun hb => h [] (by simp) hb
  induction logs with
  | nil =>
    intro init hi hfold
    cases hfold
    exact hi
  | cons l rest ih =>
    intro init hi hfold
    rw [List.foldlM_cons] at hfold
    cases hp : processLog addressLower init l with
    | error e =>
      rw [hp] at hfold
      exact absurd hfold (by simp [exceptBind_error])
    | ok m1 =>
      rw [hp, exceptBind_ok] at hfold
      have hm1 : (m1.map Prod.fst).Nodup := by
        unfold processLog at hp
        cases hd : decodeLog addressLower l with
        | error e => rw [hd] at hp; cases hp
        | ok v =>
          obtain ⟨c, s, amt⟩ := v
          rw [hd] at hp
          cases hp
          exact nodup_map_fst_setKey _ _ _ hi
      exact ih m1 hm1 hfold

/-- C6 (code bug): for the approval with amount 50 on `contractC`, a
successful `balanceOf` delivering 70 (as a decimal string, web3 1.x) makes
`amountAtRisk` equal 70 — exceeding the approved amount — because bn.js's
`cmp` on the non-`BN` string operand returns 1 and `BN.min` returns the
balance unconditionally; only the error path, whose `0 || new BN(0)` yields
a genuine `BN`, produces the claimed min (here `min(50, 0) = 0`). -/
theorem amountAtRisk_exceeds_amount :
    amountAtRisk (balancePass [apprC] (fun _ => .ok 70)) apprC = 70 ∧
    apprC.amount = 50 ∧
    ¬ amountAtRisk (balancePass [apprC] (fun _ => .ok 70)) apprC ≤ apprC.amount ∧
    amountAtRisk (balancePass [apprC] (fun _ => .error ())) apprC = 0 := by decide

/-- C7: in `addApprovalRiskScore`, when the decimals call for contract `c`
fails, the decimals map holds the fallback 18 for `c`, and the
exchange-rate request issued for `c` asks for the amounts out of
`10 ^ 18` base units. -/
theorem decimals_fallback_propagates (approvals : List Approval)
    (decimalsResults : String → Except Unit Nat) (c : String)
    (hc : ∃ a ∈ approvals, a.contract = c)
    (hfail : decimalsResults c = .error ()) :
    (decimalsPass (jsSetDedup (approvals.map (fun a => a.contract)))
        decimalsResults).lookup c = some 18 ∧
    (c, getTokenWeiExchangeRateRequest c 18) ∈
      exchangeRateRequests (jsSetDedup (approvals.map (fun a => a.contract)))
        (decimalsPass (jsSetDedup (approvals.map (fun a => a.contract)))
          decimalsResults) ∧
    (getTokenWeiExchangeRateRequest c 18).amountIn = 10 ^ 18 := by
  obtain ⟨a, ha, hac⟩ := hc
  have hmem : c ∈ jsSetDedup (approvals.map (fun a => a.contract)) :=
    (mem_jsSetDedup _ _).mpr (List.mem_map.mpr ⟨a, ha, hac⟩)
  have hl : (decimalsPass (jsSetDedup (approvals.map (fun a => a.contract)))
      decimalsResults).lookup c = some 18 := by
    rw [decimalsPass_lookup _ _ _ hmem, hfail]
  refine ⟨hl, ?_, rfl⟩
  unfold exchangeRateRequests
  refine List.mem_map.mpr ⟨c, hmem, ?_⟩
  rw [hl]
  rfl

/-- Witness for C7: one approval on `contractC`, decimals oracle always
failing — the map holds 18 and the request asks for `10 ^ 18` units. -/
theorem decimals_fallback_propagates_witness :
    (decimalsPass (jsSetDedup ([apprC].map (fun a => a.contract)))
        (fun _ => .error ())).lookup contractC = some 18 ∧
    (contractC, getTokenWeiExchangeRateRequest contractC 18) ∈
      exchangeRateRequests (jsSetDedup ([apprC].map (fun a => a.contract)))
        (decimalsPass (jsSetDedup ([apprC].map (fun a => a.contract)))
          (fun _ => .error ())) ∧
    (getTokenWeiExchangeRateRequest contractC 18).amountIn = 10 ^ 18 :=
  decimals_fallback_propagates [apprC] (fun _ => .error ()) contractC
    ⟨apprC, by decide, by decide⟩ rfl

/-- C8: when the balance call for contract `c` fails, every approval on `c`
is scored with the balance treated as 0: its `amountAtRisk` is 0 and, in the
report of `addApprovalRiskScore`, its `risk` is 0 and its `balance` is 0,
regardless of the approved amount. -/
theorem balance_error_scores_zero (report : ApprovalReport)
    (reputations : String → Option ℚ) (verifiedContracts : List String)
    (balanceResults : String → Except Unit Nat)
    (decimalsResults : String → Except Unit Nat)
    (ratesResults : AmountsOutRequest → Except Unit (List Nat))
    (c : String) (hfail : balanceResults c = .error ()) :
    (∀ a ∈ report.approvals, a.contract = c →
      amountAtRisk (balancePass report.approvals balanceResults) a = 0) ∧
    (∀ sa ∈ (addApprovalRiskScore report reputations verifiedContracts
        balanceResults decimalsResults ratesResults).approvals,
      sa.contract = c → sa.risk = 0 ∧ sa.balance = 0) := by
  have hAAR : ∀ a ∈ report.approvals, a.contract = c →
      amountAtRisk (balancePass report.approvals balanceResults) a = 0 := by
    intro a ha hac
    have h0 : (balancePass report.approvals balanceResults).lookup c =
        some .jsNumberZero := by
      rw [balancePass_lookup report.approvals balanceResults c ⟨a, ha, hac⟩, hfail]
    unfold amountAtRisk
    rw [hac, h0]
    simp [bnMinJs]
  refine ⟨hAAR, ?_⟩
  intro sa hsa hsac
  unfold addApprovalRiskScore at hsa
  dsimp only at hsa
  obtain ⟨a, ha, rfl⟩ := List.mem_map.mp hsa
  have hac : a.contract = c := hsac
  have h0 : (balancePass report.approvals balanceResults).lookup c =
      some .jsNumberZero := by
    rw [balancePass_lookup report.approvals balanceResults c ⟨a, ha, hac⟩, hfail]
  constructor
  · show getRiskScore reputations verifiedContracts _ _ a = 0
    unfold getRiskScore
    dsimp only
    rw [hAAR a ha hac]
    simp
  · show balanceSlotValue
        (((balancePass report.approvals balanceResults).lookup a.contract).getD
          .jsNumberZero) = 0
    rw [hac, h0]
    rfl

/-- Witness for C8: one approval with amount 50 on `contractC`, balance
oracle failing — amountAtRisk 0, risk 0, reported balance 0. -/
theorem balance_error_scores_zero_witness :
    (∀ a ∈ (ApprovalReport.mk addrA [apprC]).approvals, a.contract = contractC →
      amountAtRisk (balancePass (ApprovalReport.mk addrA [apprC]).approvals
        (fun _ => .error ())) a = 0) ∧
    (∀ sa ∈ (addApprovalRiskScore (ApprovalReport.mk addrA [apprC])
        (fun _ => none) [] (fun _ => .error ()) (fun _ => .ok 18)
        (fun _ => .ok [1, 2])).approvals,
      sa.contract = contractC → sa.risk = 0 ∧ sa.balance = 0) :=
  balance_error_scores_zero (ApprovalReport.mk addrA [apprC]) (fun _ => none) []
    (fun _ => .error ()) (fun _ => .ok 18) (fun _ => .ok [1, 2]) contractC rfl

/-- C5: in the allowance pass of `getApprovals`, an approval whose batched
allowance call errors gets `allowanceError = true` and no `allowance` value,
while an approval whose call succeeds gets `allowance` set and no error
flag — per-item fault isolation. -/
theorem allowance_fault_isolation (address : String) (logs : List TxLog)
    (allowanceResults : String → Except Unit Nat) (report : ApprovalReport)
    (hdec : ∀ l ∈ logs, decodedDotFree (jsToLower address) l = true)
    (hrun : getApprovals address logs allowanceResults = .ok report) :
    ∀ a ∈ report.approvals, a.spender ≠ nullAddress →
      (allowanceResults (approvalKeyOf a.contract a.spender) = .error () →
        a.allowanceError = true ∧ a.allowance = none) ∧
      (∀ v, allowanceResults (approvalKeyOf a.contract a.spender) = .ok v →
        a.allowance = some v ∧ a.allowanceError = false) := by
  obtain ⟨out, m0, hout, hm0, hrep⟩ := getApprovals_ok_inv hrun
  have hperm := sortLogs_perm_of_ok hout
  have hdecOut : ∀ l ∈ out, decodedDotFree (jsToLower address) l = true :=
    fun l hl => hdec l (hperm.mem_iff.mp hl)
  have hsome : ∀ l ∈ out, (decodeKey (jsToLower address) l).isSome := by
    intro l hl
    obtain ⟨c', s', amt', _h1, _h2, _h3, hk⟩ := decodedDotFree_spec (hdecOut l hl)
    rw [hk]
    rfl
  obtain ⟨m0', hm0', hlook, hnd', hprov⟩ :=
    buildApprovalMap_char (jsToLower address) out hsome
  have hm0eq : m0' = m0 := by
    rw [hm0] at hm0'
    injection hm0' with h2
    exact h2.symm
  subst hm0eq
  have hvalidnd : (validApprovalKeys m0').Nodup := List.Nodup.filter _ hnd'
  have hfields : ∀ p ∈ m0', p.2.allowance = none ∧ p.2.allowanceError = false := by
    intro p hp
    have h1 := lookup_of_mem_nodup hnd' hp
    rw [hlook p.1] at h1
    obtain ⟨amt0, _h2, h3⟩ := Option.map_eq_some'.mp h1
    rw [← h3]
    exact ⟨rfl, rfl⟩
  intro a ha hnull
  rw [hrep] at ha
  dsimp only at ha
  rw [allowancePass_eq_map _ _ _ hvalidnd, List.map_map] at ha
  obtain ⟨p, hp, hpa⟩ := List.mem_map.mp ha
  obtain ⟨l, hl, hlk⟩ := hprov p hp
  obtain ⟨c', s', amt', _hd, hc', hs', hk⟩ := decodedDotFree_spec (hdecOut l hl)
  rw [hlk] at hk
  injection hk with hk2
  by_cases hv : p.1 ∈ validApprovalKeys m0'
  · have hacon : a.contract = contractOfKey p.1 := by
      rw [← hpa]
      simp [Function.comp, if_pos hv, entryToApproval]
    have haspn : a.spender = spenderOfKey p.1 := by
      rw [← hpa]
      simp [Function.comp, if_pos hv, entryToApproval]
    have hkeyEq : approvalKeyOf a.contract a.spender = p.1 := by
      rw [hacon, haspn, hk2, contractOfKey_approvalKeyOf c' s' hc' hs',
        spenderOfKey_approvalKeyOf c' s' hc' hs']
    have haal : a.allowance = (allowanceHandler allowanceResults p.1 p.2).allowance := by
      rw [← hpa]
      simp [Function.comp, if_pos hv, entryToApproval]
    have haer : a.allowanceError =
        (allowanceHandler allowanceResults p.1 p.2).allowanceError := by
      rw [← hpa]
      simp [Function.comp, if_pos hv, entryToApproval]
    constructor
    · intro herr
      rw [hkeyEq] at herr
      rw [haal, haer]
      unfold allowanceHandler
      rw [herr]
      exact ⟨rfl, (hfields p hp).1⟩
    · intro v hok
      rw [hkeyEq] at hok
      rw [haal, haer]
      unfold allowanceHandler
      rw [hok]
      exact ⟨rfl, (hfields p hp).2⟩
  · exfalso
    apply hnull
    have haspn : a.spender = spenderOfKey p.1 := by
      rw [← hpa]
      simp [Function.comp, if_neg hv, entryToApproval]
    rw [haspn, hk2, spenderOfKey_approvalKeyOf c' s' hc' hs']
    have hkeys : p.1 ∈ m0'.map Prod.fst := List.mem_map.mpr ⟨p, hp, rfl⟩
    by_contra hne
    apply hv
    unfold validApprovalKeys
    refine List.mem_filter.mpr ⟨hkeys, ?_⟩
    simp only [hk2, spenderOfKey_approvalKeyOf c' s' hc' hs']
    exact decide_eq_true hne

/-- Witness for C5: two batched approvals on `contractC`; the
`(contractC, spenderB)` allowance call errors while the
`(contractC, spenderD)` call returns 9 — the first approval carries
`allowanceError = true` with no allowance, the second carries allowance 9. -/
theorem allowance_fault_isolation_witness :
    ((Approval.mk contractC spenderB 100 none true).allowanceError = true ∧
     (Approval.mk contractC spenderB 100 none true).allowance = none) ∧
    ((Approval.mk contractC spenderD 8 (some 9) false).allowance = some 9 ∧
     (Approval.mk contractC spenderD 8 (some 9) false).allowanceError = false) :=
  ⟨(allowance_fault_isolation addrA [log100, logS2] allowOracleCB reportFault
      (by decide) (by decide) (Approval.mk contractC spenderB 100 none true)
      (by decide) (by decide)).1 (by decide),
   (allowance_fault_isolation addrA [log100, logS2] allowOracleCB reportFault
      (by decide) (by decide) (Approval.mk contractC spenderD 8 (some 9) false)
      (by decide) (by decide)).2 9 (by decide)⟩

/-- C9 (amended): each sub-operation of the allowance pass writes its own
key of the deduplicated `approvalMap` key list (pairwise distinct), and the
decimals and exchange-rate passes write the deduplicated token addresses
(pairwise distinct); the balance pass, batched per approval, writes
`balances[approval.contract]`, a key that coincides for approvals sharing a
contract. -/
theorem pass_write_keys_disjointness (addressLower : String) (logs : List TxLog)
    (m0 : List (String × ApprovalData))
    (hbuild : buildApprovalMap addressLower logs = .ok m0)
    (tokens : List String) (approvals : List Approval) :
    (allowanceWriteKeys (validApprovalKeys m0)).Nodup ∧
    (decimalsWriteKeys (jsSetDedup tokens)).Nodup ∧
    (exchangeRateWriteKeys (jsSetDedup tokens)).Nodup ∧
    balanceWriteKeys approvals = approvals.map (fun a => a.contract) := by
  refine ⟨?_, jsSetDedup_nodup tokens, jsSetDedup_nodup tokens, rfl⟩
  exact List.Nodup.filter _ (buildApprovalMap_nodup_keys addressLower logs m0 hbuild)

/-- Witness for C9's amended statement at a concrete reconstruction. -/
theorem pass_write_keys_disjointness_witness :
    (allowanceWriteKeys (validApprovalKeys
      [(approvalKeyOf contractC spenderB, ApprovalData.mk 100 none false)])).Nodup ∧
    (decimalsWriteKeys (jsSetDedup [contractC, contractC])).Nodup ∧
    (exchangeRateWriteKeys (jsSetDedup [contractC, contractC])).Nodup ∧
    balanceWriteKeys [apprC] = [apprC].map (fun a => a.contract) :=
  pass_write_keys_disjointness (jsToLower addrA) [log100]
    [(approvalKeyOf contractC spenderB, ApprovalData.mk 100 none false)]
    (by decide) [contractC, contractC] [apprC]

/-- C9 counterexample: two reconstructed approvals share `contractC` (with
spenders `spenderB` and `spenderD`), so in the balance pass the two
sub-operations write the same `balances[contractC]` slot — the write-key
list `[contractC, contractC]` is not pairwise distinct. -/
theorem balance_pass_write_keys_collide :
    getApprovals addrA [log100, logS2] (fun _ => .ok 1) =
      .ok (ApprovalReport.mk addrA
        [Approval.mk contractC spenderB 100 (some 1) false,
         Approval.mk contractC spenderD 8 (some 1) false]) ∧
    balanceWriteKeys
        [Approval.mk contractC spenderB 100 (some 1) false,
         Approval.mk contractC spenderD 8 (some 1) false] =
      [contractC, contractC] ∧
    ¬ (balanceWriteKeys
        [Approval.mk contractC spenderB 100 (some 1) false,
         Approval.mk contractC spenderD 8 (some 1) false]).Nodup := by decide

end EthApprovals
